import Mathlib

/-!
Verification of the `data_tracker` library (src/lib.rs).

The library owns a value `T` together with a registry of listeners keyed
by `K`.  A `Modifier` handle clones the value on construction, lets the
caller mutate the live value, and on `Drop` compares the clone against
the live value; if they differ it invokes every registered callback with
the old and the new value.

Shallow embedding: callbacks are opaque values of a type `C`; invoking a
callback is recorded as an event `(callback, old, new)` in an event
list.  The `HashMap<K, Box<OnChanged<T>>>` is embedded as an association
list with unique keys; `insert` replaces in place and returns the
previous callback, `remove` deletes the entry and returns it, iteration
for notification walks the stored values in list order (the source's
iteration order is unspecified, so any fixed order is a faithful model
of one run).  Rust's in-place mutation becomes explicit state passing.
-/

namespace DataTrackerModel

/-- An invocation of a callback: which callback ran, and the `old_value`
and `new_value` arguments it received (`OnChanged::on_changed`). -/
abbrev Event (T C : Type) : Type := C × T × T

/-- `HashMap::insert`: insert or replace the entry at `key`, returning the
previously stored value if one existed.  Embedded on an association list:
replace in place when the key is present, append otherwise. -/
def hmInsert [DecidableEq K] : List (K × C) → K → C → Option C × List (K × C)
  | [], k, c => (none, [(k, c)])
  | (k', c') :: rest, k, c =>
      if k' = k then (some c', (k, c) :: rest)
      else
        let p := hmInsert rest k c
        (p.1, (k', c') :: p.2)

/-- `HashMap::remove`: remove and return the entry at `key` if present. -/
def hmRemove [DecidableEq K] : List (K × C) → K → Option C × List (K × C)
  | [], _ => (none, [])
  | (k', c') :: rest, k =>
      if k' = k then (some c', rest)
      else
        let p := hmRemove rest k
        (p.1, (k', c') :: p.2)

/-- `HashMap::get`-style lookup (first match). -/
def hmLookup [DecidableEq K] : List (K × C) → K → Option C
  | [], _ => none
  | (k', c') :: rest, k => if k' = k then some c' else hmLookup rest k

/-- The `HashMap` invariant: stored keys are pairwise distinct. -/
def keysNodup (l : List (K × C)) : Prop := (l.map Prod.fst).Nodup

/-- `struct Inner<T, K>`: the tracked `value` and the callback map
`fn_map` (src/lib.rs lines 109-115). -/
@[ext]
structure Inner (T K C : Type) where
  value : T
  fn_map : List (K × C)

/-- `Inner::add_listener` (src/lib.rs lines 121-123): delegates to
`HashMap::insert`. -/
def Inner.add_listener [DecidableEq K] (i : Inner T K C) (key : K) (f : C) :
    Option C × Inner T K C :=
  let p := hmInsert i.fn_map key f
  (p.1, { i with fn_map := p.2 })

/-- `Inner::remove_listener` (src/lib.rs lines 124-126): delegates to
`HashMap::remove`. -/
def Inner.remove_listener [DecidableEq K] (i : Inner T K C) (key : K) :
    Option C × Inner T K C :=
  let p := hmRemove i.fn_map key
  (p.1, { i with fn_map := p.2 })

/-- `struct Modifier<'a, T, K>` (src/lib.rs lines 140-146): the snapshot
`orig_copy` and the exclusively borrowed `Inner`.  The Rust handle holds
`&'a mut Inner`; the embedding carries the `Inner` by value and threads
it explicitly. -/
structure Modifier (T K C : Type) where
  orig_copy : T
  inner_ref : Inner T K C

/-- `Modifier::new` (src/lib.rs lines 152-158): clone the current value
into `orig_copy`. -/
def Modifier.new (inner : Inner T K C) : Modifier T K C :=
  { orig_copy := inner.value, inner_ref := inner }

/-- `Deref for Modifier` (src/lib.rs lines 161-170): read the live value. -/
def Modifier.deref (m : Modifier T K C) : T := m.inner_ref.value

/-- A write through `DerefMut for Modifier` (src/lib.rs lines 172-179):
`*handle = v` stores `v` into the live value. -/
def Modifier.writeValue (m : Modifier T K C) (v : T) : Modifier T K C :=
  { m with inner_ref := { m.inner_ref with value := v } }

/-- A sequence of reads/writes through the handle during its lifetime:
each step reads the live value through `Deref` and stores an updated
value through `DerefMut`. -/
def Modifier.applyWrites (m : Modifier T K C) (ws : List (T → T)) :
    Modifier T K C :=
  ws.foldl (fun m f => m.writeValue (f m.deref)) m

/-- `Inner::notify_listeners` (src/lib.rs lines 127-133): walk
`fn_map.values()` and call `on_changed(orig_value, new_value)` on each,
where `orig_value` is the modifier's `orig_copy` and `new_value` is the
modifier's deref.  Each call is recorded as an event, in loop order. -/
def Inner.notify_listeners (i : Inner T K C) (m : Modifier T K C) :
    List (Event T C) :=
  i.fn_map.foldl (fun events kv => events ++ [(kv.2, m.orig_copy, m.deref)]) []

/-- `Drop for Modifier` (src/lib.rs lines 181-190): if `orig_copy` differs
from the live value, call `notify_listeners`; return the borrowed `Inner`
to the container together with the recorded invocations. -/
def Modifier.drop [DecidableEq T] (m : Modifier T K C) :
    Inner T K C × List (Event T C) :=
  if m.orig_copy ≠ m.inner_ref.value then
    (m.inner_ref, m.inner_ref.notify_listeners m)
  else
    (m.inner_ref, [])

/-- `struct DataTracker<T, K>` (src/lib.rs lines 199-204). -/
@[ext]
structure DataTracker (T K C : Type) where
  inner : Inner T K C

/-- `DataTracker::new` (src/lib.rs lines 214-221): take ownership of the
value; the callback map starts empty. -/
def DataTracker.new (value : T) : DataTracker T K C :=
  { inner := { value := value, fn_map := [] } }

/-- `DataTracker::add_listener` (src/lib.rs lines 227-232): delegates to
`Inner::add_listener`. -/
def DataTracker.add_listener [DecidableEq K] (t : DataTracker T K C)
    (key : K) (callback : C) : Option C × DataTracker T K C :=
  let p := t.inner.add_listener key callback
  (p.1, { inner := p.2 })

/-- `DataTracker::remove_listener` (src/lib.rs lines 238-240): delegates
to `Inner::remove_listener`. -/
def DataTracker.remove_listener [DecidableEq K] (t : DataTracker T K C)
    (key : K) : Option C × DataTracker T K C :=
  let p := t.inner.remove_listener key
  (p.1, { inner := p.2 })

/-- `DataTracker::as_tracked_mut` (src/lib.rs lines 243-245): hand the
`Inner` to a fresh `Modifier`. -/
def DataTracker.as_tracked_mut (t : DataTracker T K C) : Modifier T K C :=
  Modifier.new t.inner

/-- `AsRef for DataTracker` (src/lib.rs lines 248-255): a read-only view
of the current value.  The borrow leaves the tracker as it was, so the
embedding returns the value together with the unchanged tracker. -/
def DataTracker.as_ref (t : DataTracker T K C) : T × DataTracker T K C :=
  (t.inner.value, t)

/-- One full mutation bracket: obtain the handle via `as_tracked_mut`,
perform the writes, and let the handle drop.  Returns the tracker after
the drop and the recorded listener invocations. -/
def DataTracker.runMutation [DecidableEq T] (t : DataTracker T K C)
    (ws : List (T → T)) : DataTracker T K C × List (Event T C) :=
  let p := (t.as_tracked_mut.applyWrites ws).drop
  ({ inner := p.1 }, p.2)

/-- A client operation on the tracker, for stating trace properties. -/
inductive Op (T K C : Type) where
  | addL (key : K) (callback : C)
  | removeL (key : K)
  | mutate (ws : List (T → T))
  | readOnly

/-- Whether an operation registers the callback `c`. -/
def Op.addsCallback : Op T K C → C → Prop
  | .addL _ c', c => c' = c
  | _, _ => False

/-- Execute one operation: the resulting tracker and the listener
invocations it triggered. -/
def DataTracker.step [DecidableEq T] [DecidableEq K] (t : DataTracker T K C) :
    Op T K C → DataTracker T K C × List (Event T C)
  | .addL k c => ((t.add_listener k c).2, [])
  | .removeL k => ((t.remove_listener k).2, [])
  | .mutate ws => t.runMutation ws
  | .readOnly => ((t.as_ref).2, [])

/-- Execute a sequence of operations, accumulating all invocations. -/
def DataTracker.runOps [DecidableEq T] [DecidableEq K] (t : DataTracker T K C) :
    List (Op T K C) → DataTracker T K C × List (Event T C)
  | [] => (t, [])
  | op :: ops =>
      let p := t.step op
      let q := p.1.runOps ops
      (q.1, p.2 ++ q.2)

/-! ### Helper lemmas -/

theorem foldl_append_singleton_eq_map (g : α → β) (l : List α) (acc : List β) :
    l.foldl (fun evs a => evs ++ [g a]) acc = acc ++ l.map g := by
  induction l generalizing acc with
  | nil => simp
  | cons a l ih => simp [List.foldl, ih]

theorem Inner.notify_listeners_eq_map (i : Inner T K C) (m : Modifier T K C) :
    i.notify_listeners m =
      i.fn_map.map (fun kv => (kv.2, m.orig_copy, m.deref)) := by
  simpa [Inner.notify_listeners] using
    foldl_append_singleton_eq_map (fun kv : K × C => (kv.2, m.orig_copy, m.deref))
      i.fn_map []

theorem Modifier.applyWrites_orig_copy (m : Modifier T K C) (ws : List (T → T)) :
    (m.applyWrites ws).orig_copy = m.orig_copy := by
  induction ws generalizing m with
  | nil => rfl
  | cons f ws ih => simpa [Modifier.applyWrites] using ih (m.writeValue (f m.deref))

theorem Modifier.applyWrites_fn_map (m : Modifier T K C) (ws : List (T → T)) :
    (m.applyWrites ws).inner_ref.fn_map = m.inner_ref.fn_map := by
  induction ws generalizing m with
  | nil => rfl
  | cons f ws ih => simpa [Modifier.applyWrites] using ih (m.writeValue (f m.deref))

theorem Modifier.applyWrites_value (m : Modifier T K C) (ws : List (T → T)) :
    (m.applyWrites ws).inner_ref.value =
      ws.foldl (fun v f => f v) m.inner_ref.value := by
  induction ws generalizing m with
  | nil => rfl
  | cons f ws ih =>
      simpa [Modifier.applyWrites, Modifier.writeValue, Modifier.deref] using
        ih (m.writeValue (f m.deref))

theorem hmInsert_fst [DecidableEq K] (l : List (K × C)) (k : K) (c : C) :
    (hmInsert l k c).1 = hmLookup l k := by
  induction l with
  | nil => rfl
  | cons e rest ih =>
      rcases e with ⟨k', c'⟩
      by_cases h : k' = k
      · simp [hmInsert, hmLookup, h]
      · simp [hmInsert, hmLookup, h, ih]

theorem hmLookup_hmInsert_self [DecidableEq K] (l : List (K × C)) (k : K) (c : C) :
    hmLookup (hmInsert l k c).2 k = some c := by
  induction l with
  | nil => simp [hmInsert, hmLookup]
  | cons e rest ih =>
      rcases e with ⟨k', c'⟩
      by_cases h : k' = k
      · simp [hmInsert, hmLookup, h]
      · simp [hmInsert, hmLookup, h, ih]

theorem hmLookup_hmInsert_ne [DecidableEq K] (l : List (K × C)) (k : K) (c : C)
    (q : K) (h : q ≠ k) : hmLookup (hmInsert l k c).2 q = hmLookup l q := by
  induction l with
  | nil =>
      have hkq : k ≠ q := fun he => h he.symm
      simp [hmInsert, hmLookup, hkq]
  | cons e rest ih =>
      rcases e with ⟨k', c'⟩
      by_cases hk : k' = k
      · subst hk
        have hkq : k' ≠ q := fun he => h he.symm
        simp [hmInsert, hmLookup, hkq]
      · simp only [hmInsert, if_neg hk]
        by_cases hq : k' = q
        · simp [hmLookup, hq]
        · simp [hmLookup, hq, ih]

theorem filter_key_eq_nil [DecidableEq K] (l : List (K × C)) (k : K)
    (h : k ∉ l.map Prod.fst) :
    l.filter (fun kv => decide (kv.1 = k)) = [] := by
  induction l with
  | nil => rfl
  | cons e rest ih =>
      rcases e with ⟨k', c'⟩
      simp only [List.map, List.mem_cons, not_or] at h
      have hne : ¬ k' = k := fun he => h.1 he.symm
      simp [List.filter, decide_eq_false hne, ih h.2]

theorem hmInsert_filter_key [DecidableEq K] (l : List (K × C)) (k : K) (c : C)
    (h : keysNodup l) :
    (hmInsert l k c).2.filter (fun kv => decide (kv.1 = k)) = [(k, c)] := by
  induction l with
  | nil => simp [hmInsert]
  | cons e rest ih =>
      rcases e with ⟨k', c'⟩
      rw [keysNodup, List.map, List.nodup_cons] at h
      by_cases hk : k' = k
      · subst hk
        simp [hmInsert, List.filter, filter_key_eq_nil rest k' h.1]
      · simp [hmInsert, List.filter, hk, ih h.2]

theorem hmRemove_fst [DecidableEq K] (l : List (K × C)) (k : K) :
    (hmRemove l k).1 = hmLookup l k := by
  induction l with
  | nil => rfl
  | cons e rest ih =>
      rcases e with ⟨k', c'⟩
      by_cases h : k' = k
      · simp [hmRemove, hmLookup, h]
      · simp [hmRemove, hmLookup, h, ih]

theorem hmRemove_absent [DecidableEq K] (l : List (K × C)) (k : K)
    (h : hmLookup l k = none) : (hmRemove l k).2 = l := by
  induction l with
  | nil => rfl
  | cons e rest ih =>
      rcases e with ⟨k', c'⟩
      by_cases hk : k' = k
      · simp [hmLookup, hk] at h
      · simp only [hmLookup, if_neg hk] at h
        simp [hmRemove, hk, ih h]

theorem hmLookup_hmRemove_ne [DecidableEq K] (l : List (K × C)) (k : K)
    (q : K) (h : q ≠ k) : hmLookup (hmRemove l k).2 q = hmLookup l q := by
  induction l with
  | nil => rfl
  | cons e rest ih =>
      rcases e with ⟨k', c'⟩
      by_cases hk : k' = k
      · subst hk
        have hkq : k' ≠ q := fun he => h he.symm
        simp [hmRemove, hmLookup, hkq]
      · simp only [hmRemove, if_neg hk]
        by_cases hq : k' = q
        · simp [hmLookup, hq]
        · simp [hmLookup, hq, ih]

theorem hmRemove_mem [DecidableEq K] (l : List (K × C)) (k : K)
    (h : keysNodup l) : ∀ e ∈ (hmRemove l k).2, e ∈ l ∧ e.1 ≠ k := by
  induction l with
  | nil => intro e he; simp [hmRemove] at he
  | cons a rest ih =>
      rcases a with ⟨k', c'⟩
      rw [keysNodup, List.map, List.nodup_cons] at h
      intro e he
      by_cases hk : k' = k
      · subst hk
        simp only [hmRemove, if_pos rfl, if_true] at he
        refine ⟨List.mem_cons_of_mem _ he, ?_⟩
        intro hek
        have hmem : e.1 ∈ rest.map Prod.fst := List.mem_map_of_mem Prod.fst he
        rw [hek] at hmem
        exact h.1 hmem
      · simp only [hmRemove, if_neg hk, List.mem_cons] at he
        rcases he with he | he
        · exact ⟨List.mem_cons.mpr (Or.inl he), by rw [he]; exact hk⟩
        · rcases ih h.2 e he with ⟨h1, h2⟩
          exact ⟨List.mem_cons_of_mem _ h1, h2⟩

theorem hmRemove_key_not_mem [DecidableEq K] (l : List (K × C)) (k : K)
    (h : keysNodup l) : k ∉ (hmRemove l k).2.map Prod.fst := by
  intro hk
  rcases List.mem_map.mp hk with ⟨e, he, hek⟩
  exact (hmRemove_mem l k h e he).2 hek

theorem mem_values_hmInsert [DecidableEq K] (l : List (K × C)) (k : K) (c : C)
    (x : C) (h : x ∈ (hmInsert l k c).2.map Prod.snd) :
    x ∈ l.map Prod.snd ∨ x = c := by
  induction l with
  | nil => simpa [hmInsert] using h
  | cons e rest ih =>
      rcases e with ⟨k', c'⟩
      by_cases hk : k' = k
      · simp only [hmInsert, if_pos hk, List.map, List.mem_cons] at h ⊢
        tauto
      · simp only [hmInsert, if_neg hk, List.map, List.mem_cons] at h ⊢
        rcases h with h | h
        · exact Or.inl (Or.inl h)
        · rcases ih h with h | h
          · exact Or.inl (Or.inr h)
          · exact Or.inr h

theorem mem_values_hmRemove [DecidableEq K] (l : List (K × C)) (k : K)
    (x : C) (h : x ∈ (hmRemove l k).2.map Prod.snd) : x ∈ l.map Prod.snd := by
  induction l with
  | nil => simp [hmRemove] at h
  | cons e rest ih =>
      rcases e with ⟨k', c'⟩
      by_cases hk : k' = k
      · simp only [hmRemove, if_pos hk] at h
        exact List.mem_cons_of_mem _ h
      · simp only [hmRemove, if_neg hk, List.map, List.mem_cons] at h ⊢
        tauto

theorem runMutation_fn_map [DecidableEq T] (t : DataTracker T K C)
    (ws : List (T → T)) :
    (t.runMutation ws).1.inner.fn_map = t.inner.fn_map := by
  have hf := Modifier.applyWrites_fn_map t.as_tracked_mut ws
  simp only [DataTracker.runMutation, Modifier.drop]
  by_cases hc : (t.as_tracked_mut.applyWrites ws).orig_copy =
      (t.as_tracked_mut.applyWrites ws).inner_ref.value <;>
    simpa [hc] using hf

theorem runMutation_events_mem [DecidableEq T] (t : DataTracker T K C)
    (ws : List (T → T)) :
    ∀ ev ∈ (t.runMutation ws).2, ev.1 ∈ t.inner.fn_map.map Prod.snd := by
  intro ev hev
  have hf : (t.as_tracked_mut.applyWrites ws).inner_ref.fn_map = t.inner.fn_map :=
    Modifier.applyWrites_fn_map t.as_tracked_mut ws
  simp only [DataTracker.runMutation, Modifier.drop] at hev
  by_cases hc : (t.as_tracked_mut.applyWrites ws).orig_copy =
      (t.as_tracked_mut.applyWrites ws).inner_ref.value
  · simp [hc] at hev
  · simp only [ne_eq, hc, not_false_eq_true, if_true,
      Inner.notify_listeners_eq_map, hf] at hev
    rcases List.mem_map.mp hev with ⟨kv, hkv, he⟩
    rw [← he]
    exact List.mem_map_of_mem Prod.snd hkv

theorem runOps_events_avoid [DecidableEq T] [DecidableEq K] (c : C) :
    ∀ (ops : List (Op T K C)) (t : DataTracker T K C),
      c ∉ t.inner.fn_map.map Prod.snd →
      (∀ op ∈ ops, ¬ op.addsCallback c) →
      ∀ ev ∈ (t.runOps ops).2, ev.1 ≠ c := by
  intro ops
  induction ops with
  | nil => intro t _ _ ev hev; simp [DataTracker.runOps] at hev
  | cons op ops ih =>
      intro t hc hops ev hev
      simp only [DataTracker.runOps, List.mem_append] at hev
      rcases hev with hev | hev
      · cases op with
        | addL k c' => simp [DataTracker.step] at hev
        | removeL k => simp [DataTracker.step] at hev
        | readOnly => simp [DataTracker.step] at hev
        | mutate ws =>
            intro he
            exact hc (he ▸ runMutation_events_mem t ws ev hev)
      · refine ih (t.step op).1 ?_ (fun o ho => hops o (List.mem_cons_of_mem _ ho)) ev hev
        cases op with
        | addL k c' =>
            intro hmem
            have hmem' : c ∈ (hmInsert t.inner.fn_map k c').2.map Prod.snd := by
              simpa [DataTracker.step, DataTracker.add_listener, Inner.add_listener]
                using hmem
            rcases mem_values_hmInsert t.inner.fn_map k c' c hmem' with h | h
            · exact hc h
            · exact hops (Op.addL k c') (List.mem_cons_self _ _)
                (by simpa [Op.addsCallback] using h.symm)
        | removeL k =>
            intro hmem
            have hmem' : c ∈ (hmRemove t.inner.fn_map k).2.map Prod.snd := by
              simpa [DataTracker.step, DataTracker.remove_listener,
                Inner.remove_listener] using hmem
            exact hc (mem_values_hmRemove t.inner.fn_map k c hmem')
        | mutate ws =>
            show c ∉ (t.runMutation ws).1.inner.fn_map.map Prod.snd
            rw [runMutation_fn_map]
            exact hc
        | readOnly => exact hc

/-! ### Claim theorems -/

/-- Claim C1: for every initial value `v1` and every `v2 ≠ v1`, after
obtaining the handle via `as_tracked_mut`, writing `v2` in place of `v1`
and releasing the handle, every listener registered at release time is
invoked exactly once with `old = v1`, `new = v2` (the events are exactly
one per registry entry, each carrying that pair), and the container keeps
value `v2` and its registry. -/
theorem claim_C1_change_notifies_all [DecidableEq T]
    (t : DataTracker T K C) (v2 : T) (h : t.inner.value ≠ v2) :
    (t.as_tracked_mut.writeValue v2).drop =
      (⟨v2, t.inner.fn_map⟩,
       t.inner.fn_map.map (fun kv => (kv.2, t.inner.value, v2))) := by
  have hne : (t.as_tracked_mut.writeValue v2).orig_copy ≠
      (t.as_tracked_mut.writeValue v2).inner_ref.value := by
    simpa [DataTracker.as_tracked_mut, Modifier.new, Modifier.writeValue] using h
  simp only [Modifier.drop, if_pos hne, Inner.notify_listeners_eq_map]
  simp [DataTracker.as_tracked_mut, Modifier.new, Modifier.writeValue,
    Modifier.deref]

theorem claim_C1_witness :
    ((((DataTracker.new 1 : DataTracker Nat Nat Nat).add_listener 0 100).2.inner.value ≠ 2) ∧
     ((((DataTracker.new 1 : DataTracker Nat Nat Nat).add_listener 0 100).2.as_tracked_mut.writeValue
        2).drop =
      (⟨2, [(0, 100)]⟩, [(100, 1, 2)]))) :=
  ⟨by decide,
   by
     have h := claim_C1_change_notifies_all
       ((DataTracker.new 1 : DataTracker Nat Nat Nat).add_listener 0 100).2 2 (by decide)
     simpa [DataTracker.new, DataTracker.add_listener, Inner.add_listener, hmInsert] using h⟩

/-- Claim C2: releasing a handle whose live value is value-equal to the
snapshot taken at construction — because no write occurred or because the
writes restored an equal value — invokes no listener and returns the
container unchanged. -/
theorem claim_C2_no_change_no_notification [DecidableEq T]
    (t : DataTracker T K C) (ws : List (T → T))
    (h : ws.foldl (fun v f => f v) t.inner.value = t.inner.value) :
    t.runMutation ws = (t, []) := by
  have hv := Modifier.applyWrites_value t.as_tracked_mut ws
  have hf := Modifier.applyWrites_fn_map t.as_tracked_mut ws
  have ho := Modifier.applyWrites_orig_copy t.as_tracked_mut ws
  have horig : (t.as_tracked_mut.applyWrites ws).orig_copy =
      (t.as_tracked_mut.applyWrites ws).inner_ref.value := by
    rw [ho, hv]
    simp [DataTracker.as_tracked_mut, Modifier.new, h]
  simp only [DataTracker.runMutation, Modifier.drop, ne_eq, horig, not_true_eq_false,
    if_false]
  refine Prod.ext ?_ rfl
  show DataTracker.mk (t.as_tracked_mut.applyWrites ws).inner_ref = t
  have : (t.as_tracked_mut.applyWrites ws).inner_ref = t.inner := by
    refine Inner.ext ?_ ?_
    · rw [hv]; simpa [DataTracker.as_tracked_mut, Modifier.new] using h
    · simpa [DataTracker.as_tracked_mut, Modifier.new] using hf
  rw [this]

theorem claim_C2_witness :
    (([fun v => v + 1, fun _ => 5] : List (Nat → Nat)).foldl (fun v f => f v)
        ((DataTracker.new 5 : DataTracker Nat Nat Nat).add_listener 0 100).2.inner.value =
      ((DataTracker.new 5 : DataTracker Nat Nat Nat).add_listener 0 100).2.inner.value) ∧
    (((DataTracker.new 5 : DataTracker Nat Nat Nat).add_listener 0 100).2.runMutation
        [fun v => v + 1, fun _ => 5] =
      (((DataTracker.new 5 : DataTracker Nat Nat Nat).add_listener 0 100).2, [])) :=
  ⟨by decide,
   claim_C2_no_change_no_notification
     ((DataTracker.new 5 : DataTracker Nat Nat Nat).add_listener 0 100).2
     [fun v => v + 1, fun _ => 5] (by decide)⟩

/-- Claim C3: one handle produces at most one notification round at
release: no events when the final value equals the construction-time
value, otherwise exactly one event per registry entry whose old argument
is the value at handle construction and whose new argument is the value
after the last write — never swapped, and intermediate values never
appear. -/
theorem claim_C3_single_round_first_pre_last_post [DecidableEq T]
    (t : DataTracker T K C) (ws : List (T → T)) :
    t.runMutation ws =
      (⟨⟨ws.foldl (fun v f => f v) t.inner.value, t.inner.fn_map⟩⟩,
       if t.inner.value = ws.foldl (fun v f => f v) t.inner.value then []
       else t.inner.fn_map.map
         (fun kv => (kv.2, t.inner.value, ws.foldl (fun v f => f v) t.inner.value))) := by
  have hv := Modifier.applyWrites_value t.as_tracked_mut ws
  have hf := Modifier.applyWrites_fn_map t.as_tracked_mut ws
  have ho := Modifier.applyWrites_orig_copy t.as_tracked_mut ws
  have hval : (t.as_tracked_mut.applyWrites ws).inner_ref.value =
      ws.foldl (fun v f => f v) t.inner.value := by
    rw [hv]; simp [DataTracker.as_tracked_mut, Modifier.new]
  have horig : (t.as_tracked_mut.applyWrites ws).orig_copy = t.inner.value := by
    rw [ho]; simp [DataTracker.as_tracked_mut, Modifier.new]
  have hfm : (t.as_tracked_mut.applyWrites ws).inner_ref.fn_map = t.inner.fn_map := by
    rw [hf]; simp [DataTracker.as_tracked_mut, Modifier.new]
  by_cases hc : t.inner.value = ws.foldl (fun v f => f v) t.inner.value
  · have heq : (t.as_tracked_mut.applyWrites ws).orig_copy =
        (t.as_tracked_mut.applyWrites ws).inner_ref.value := by
      rw [horig, hval]; exact hc
    simp only [DataTracker.runMutation, Modifier.drop, ne_eq, heq, not_true_eq_false,
      if_false, if_pos hc]
    refine Prod.ext ?_ rfl
    show DataTracker.mk (t.as_tracked_mut.applyWrites ws).inner_ref = _
    congr 1
    exact Inner.ext hval hfm
  · have hne : (t.as_tracked_mut.applyWrites ws).orig_copy ≠
        (t.as_tracked_mut.applyWrites ws).inner_ref.value := by
      rw [horig, hval]; exact hc
    simp only [DataTracker.runMutation, Modifier.drop, ne_eq, hne, not_false_eq_true,
      if_true, if_neg hc, Inner.notify_listeners_eq_map]
    refine Prod.ext ?_ ?_
    · show DataTracker.mk (t.as_tracked_mut.applyWrites ws).inner_ref = _
      congr 1
      exact Inner.ext hval hfm
    · show (t.as_tracked_mut.applyWrites ws).inner_ref.fn_map.map _ = _
      rw [hfm, horig]
      simp [Modifier.deref, hval]

/-- Claim C4: one call of `notify_listeners` invokes every callback stored
in the registry exactly once, in a single pass (the event list is exactly
the map over the stored entries), and every invocation in the round
receives the same `(old, new)` pair. -/
theorem claim_C4_notify_single_pass_same_pair (i : Inner T K C) (m : Modifier T K C) :
    i.notify_listeners m = i.fn_map.map (fun kv => (kv.2, m.orig_copy, m.deref)) ∧
    (i.notify_listeners m).length = i.fn_map.length ∧
    ∀ ev ∈ i.notify_listeners m, ev.2.1 = m.orig_copy ∧ ev.2.2 = m.deref := by
  refine ⟨Inner.notify_listeners_eq_map i m, ?_, ?_⟩
  · rw [Inner.notify_listeners_eq_map]; simp
  · intro ev hev
    rw [Inner.notify_listeners_eq_map] at hev
    rcases List.mem_map.mp hev with ⟨kv, _, hkv⟩
    rw [← hkv]
    exact ⟨rfl, rfl⟩

/-- Claim C5: `add_listener k c` stores `c` under `k`; when a callback was
previously stored under `k` it is returned (as the result of the lookup
before the insert) and replaced, so the registry holds exactly `(k, c)`
at that key afterwards; entries at other keys and the tracked value are
unaffected. -/
theorem claim_C5_add_listener_replaces [DecidableEq K]
    (t : DataTracker T K C) (k : K) (c : C) (hnd : keysNodup t.inner.fn_map) :
    (t.add_listener k c).1 = hmLookup t.inner.fn_map k ∧
    (t.add_listener k c).2.inner.value = t.inner.value ∧
    hmLookup (t.add_listener k c).2.inner.fn_map k = some c ∧
    (∀ q, q ≠ k →
      hmLookup (t.add_listener k c).2.inner.fn_map q = hmLookup t.inner.fn_map q) ∧
    (t.add_listener k c).2.inner.fn_map.filter (fun kv => decide (kv.1 = k)) =
      [(k, c)] := by
  obtain ⟨⟨v, fm⟩⟩ := t
  simp only [DataTracker.add_listener, Inner.add_listener]
  exact ⟨hmInsert_fst fm k c, trivial, hmLookup_hmInsert_self fm k c,
    fun q hq => hmLookup_hmInsert_ne fm k c q hq, hmInsert_filter_key fm k c hnd⟩

theorem claim_C5_witness :
    keysNodup (((DataTracker.new 7 : DataTracker Nat Nat Nat).add_listener 0
        50).2.inner.fn_map) ∧
    ((((DataTracker.new 7 : DataTracker Nat Nat Nat).add_listener 0
        50).2.add_listener 0 99).1 = some 50) ∧
    (hmLookup (((DataTracker.new 7 : DataTracker Nat Nat Nat).add_listener 0
        50).2.add_listener 0 99).2.inner.fn_map 0 = some 99) ∧
    ((((DataTracker.new 7 : DataTracker Nat Nat Nat).add_listener 0
        50).2.add_listener 0 99).2.inner.fn_map.filter
        (fun kv => decide (kv.1 = 0)) = [(0, 99)]) := by
  have h := claim_C5_add_listener_replaces
    ((DataTracker.new 7 : DataTracker Nat Nat Nat).add_listener 0 50).2 0 99
    (by unfold keysNodup; decide)
  refine ⟨by unfold keysNodup; decide, ?_, h.2.2.1, h.2.2.2.2⟩
  rw [h.1]
  decide

/-- Claim C6: `remove_listener k` on a registry containing `k` removes
the entry and returns it; the removed callback is never invoked by any
later notification round as long as it is not re-added (when it was
stored only under `k`); on a registry not containing `k` it returns
nothing and leaves the tracker entirely unchanged; the tracked value is
never affected. -/
theorem claim_C6_remove_listener_final [DecidableEq T] [DecidableEq K]
    (t : DataTracker T K C) (k : K) (hnd : keysNodup t.inner.fn_map) :
    (t.remove_listener k).1 = hmLookup t.inner.fn_map k ∧
    (t.remove_listener k).2.inner.value = t.inner.value ∧
    k ∉ (t.remove_listener k).2.inner.fn_map.map Prod.fst ∧
    (∀ q, q ≠ k →
      hmLookup (t.remove_listener k).2.inner.fn_map q = hmLookup t.inner.fn_map q) ∧
    (hmLookup t.inner.fn_map k = none → (t.remove_listener k).2 = t) ∧
    (∀ c : C, (∀ e ∈ t.inner.fn_map, e.2 = c → e.1 = k) →
      ∀ ops : List (Op T K C), (∀ op ∈ ops, ¬ op.addsCallback c) →
        ∀ ev ∈ ((t.remove_listener k).2.runOps ops).2, ev.1 ≠ c) := by
  obtain ⟨⟨v, fm⟩⟩ := t
  simp only [DataTracker.remove_listener, Inner.remove_listener] at hnd ⊢
  refine ⟨hmRemove_fst fm k, trivial, hmRemove_key_not_mem fm k hnd,
    fun q hq => hmLookup_hmRemove_ne fm k q hq, ?_, ?_⟩
  · intro habs
    rw [hmRemove_absent fm k habs]
  · intro c honly ops hops
    refine runOps_events_avoid c ops _ ?_ hops
    intro hmem
    rcases List.mem_map.mp hmem with ⟨e, he, hec⟩
    have h2 := hmRemove_mem fm k hnd e he
    exact h2.2 (honly e h2.1 hec)

theorem claim_C6_witness :
    keysNodup (((DataTracker.new 7 : DataTracker Nat Nat Nat).add_listener 0
        50).2.inner.fn_map) ∧
    ((((DataTracker.new 7 : DataTracker Nat Nat Nat).add_listener 0
        50).2.remove_listener 0).1 = some 50) ∧
    ((((DataTracker.new 7 : DataTracker Nat Nat Nat).add_listener 0
        50).2.remove_listener 0).2.inner.value = 7) ∧
    ((0 : Nat) ∉ (((DataTracker.new 7 : DataTracker Nat Nat Nat).add_listener 0
        50).2.remove_listener 0).2.inner.fn_map.map Prod.fst) ∧
    ((((DataTracker.new 7 : DataTracker Nat Nat Nat).add_listener 0
        50).2.remove_listener 1).2 =
      ((DataTracker.new 7 : DataTracker Nat Nat Nat).add_listener 0 50).2) := by
  have h := claim_C6_remove_listener_final
    ((DataTracker.new 7 : DataTracker Nat Nat Nat).add_listener 0 50).2 0
    (by unfold keysNodup; decide)
  have h' := claim_C6_remove_listener_final
    ((DataTracker.new 7 : DataTracker Nat Nat Nat).add_listener 0 50).2 1
    (by unfold keysNodup; decide)
  refine ⟨by unfold keysNodup; decide, ?_, h.2.1, h.2.2.1, h'.2.2.2.2.1 (by decide)⟩
  rw [h.1]
  decide

/-- Claim C8: at handle construction the snapshot is a copy of the
container's current value — so immediately after construction the
snapshot is value-equal to the live value — and later writes through the
handle never alter the snapshot. -/
theorem claim_C8_snapshot_independent (t : DataTracker T K C) (ws : List (T → T)) :
    t.as_tracked_mut.orig_copy = t.inner.value ∧
    t.as_tracked_mut.deref = t.as_tracked_mut.orig_copy ∧
    (t.as_tracked_mut.applyWrites ws).orig_copy = t.inner.value := by
  refine ⟨rfl, rfl, ?_⟩
  rw [Modifier.applyWrites_orig_copy]
  rfl

/-- Claim C9: `as_ref` returns the container's current value and is
side-effect-free: it leaves the tracker unchanged, and any number of
read-only steps changes neither the value nor the registry, takes no
snapshot and produces no listener invocation. -/
theorem claim_C9_read_side_effect_free [DecidableEq T] [DecidableEq K]
    (t : DataTracker T K C) (n : Nat) :
    t.as_ref.1 = t.inner.value ∧ t.as_ref.2 = t ∧
    t.runOps (List.replicate n Op.readOnly) = (t, []) := by
  refine ⟨rfl, rfl, ?_⟩
  induction n generalizing t with
  | zero => rfl
  | succ n ih =>
      simp only [List.replicate, DataTracker.runOps, DataTracker.step, DataTracker.as_ref]
      rw [ih t]
      simp

/-- Claim C10: the release step itself never modifies the tracked value
or the registry: after the drop the container's value is the last value
written through the handle (the construction-time value when no write
occurred) and the registry is exactly what it was, whether or not
notification ran. -/
theorem claim_C10_release_frame [DecidableEq T]
    (t : DataTracker T K C) (ws : List (T → T)) :
    (t.runMutation ws).1.inner.fn_map = t.inner.fn_map ∧
    (t.runMutation ws).1.inner.value = ws.foldl (fun v f => f v) t.inner.value ∧
    (t.runMutation []).1.inner.value = t.inner.value := by
  have hv := Modifier.applyWrites_value t.as_tracked_mut ws
  have hf := Modifier.applyWrites_fn_map t.as_tracked_mut ws
  have h1 : (t.runMutation ws).1.inner = (t.as_tracked_mut.applyWrites ws).inner_ref := by
    simp only [DataTracker.runMutation, Modifier.drop]
    by_cases hc : (t.as_tracked_mut.applyWrites ws).orig_copy =
        (t.as_tracked_mut.applyWrites ws).inner_ref.value <;> simp [hc]
  refine ⟨?_, ?_, ?_⟩
  · rw [h1, hf]; rfl
  · rw [h1, hv]; rfl
  · simp [DataTracker.runMutation, Modifier.applyWrites, DataTracker.as_tracked_mut,
      Modifier.new, Modifier.drop]

end DataTrackerModel
